import Mathlib

/-!
Shallow embedding of the commit-aggregation and chart-building core of
git-report (src/main.rs), together with proofs of the specified
properties.

The embedded pipeline is:
  * `get_commit_log` (main.rs 41-83): each log line "date,author" is split
    on commas; field 0 is parsed as a date (polars strptime, strict: false)
    and field 1 becomes the author.
  * `plot_commit_history` (main.rs 85-132): group_by on
    (strftime("%Y-%m") of the date, author), count per group, sort by the
    month key, then one bar trace per author with stacked bar mode.
  * `plot_commit_count_per_author` (main.rs 134-171): group_by on author,
    count per group, sort ascending by count, keep the last `top` rows,
    and build a single horizontal bar trace.

Polars group_by yields groups in an unspecified order and its default sort
is not stable; the embedding determinises both (first-occurrence key order
for grouping, a stable insertion sort for sorting).  Every property proved
below is independent of that determinisation.
-/

/-- A calendar date as printed by git log with --date=short (%Y-%m-%d). -/
structure Date where
  year : Nat
  month : Nat
  day : Nat
deriving DecidableEq, Repr

/-- One commit of the repository history: its date and author display
name (the two columns produced by the log extraction step). -/
structure CommitRecord where
  date : Date
  author : String
deriving DecidableEq, Repr

/-! ### Counting group-by

`bump` and `groupCount` model a polars group_by + count aggregation over a
column of keys: a mapping from each distinct key to the number of rows
carrying it, determinised to first-occurrence key order. -/

/-- Increment the count stored at key `k` in an association list,
appending `(k, 1)` when the key is absent. -/
def bump {κ : Type} [DecidableEq κ] (k : κ) : List (κ × Nat) → List (κ × Nat)
  | [] => [(k, 1)]
  | (k₀, c) :: rest => if k₀ = k then (k₀, c + 1) :: rest else (k₀, c) :: bump k rest

/-- Count the occurrences of each value of `key` over `l`, one entry per
distinct key, in first-occurrence order. -/
def groupCount {α κ : Type} [DecidableEq κ] (key : α → κ) (l : List α) : List (κ × Nat) :=
  l.foldl (fun acc r => bump (key r) acc) []

/-- Sum of the counts stored at the keys satisfying `q`. -/
def keyFilterSum {κ : Type} (q : κ → Bool) : List (κ × Nat) → Nat
  | [] => 0
  | p :: rest => (if q p.1 then p.2 else 0) + keyFilterSum q rest

theorem keyFilterSum_eq_filter_map_sum {κ : Type} (q : κ → Bool) (l : List (κ × Nat)) :
    keyFilterSum q l = ((l.filter fun p => q p.1).map Prod.snd).sum := by
  induction l with
  | nil => rfl
  | cons p rest ih =>
    by_cases h : q p.1 <;> simp [keyFilterSum, List.filter_cons, h, ih]

theorem bump_keyFilterSum {κ : Type} [DecidableEq κ] (q : κ → Bool) (k : κ)
    (acc : List (κ × Nat)) :
    keyFilterSum q (bump k acc) = keyFilterSum q acc + (if q k then 1 else 0) := by
  induction acc with
  | nil => simp [bump, keyFilterSum]
  | cons p rest ih =>
    obtain ⟨k₀, c⟩ := p
    by_cases hk : k₀ = k
    · subst hk
      simp only [bump, if_pos rfl, keyFilterSum]
      by_cases hq : q k₀ <;> simp [hq] <;> omega
    · simp only [bump, if_neg hk, keyFilterSum, ih]
      omega

theorem foldl_bump_keyFilterSum {α κ : Type} [DecidableEq κ] (key : α → κ) (q : κ → Bool)
    (l : List α) (acc : List (κ × Nat)) :
    keyFilterSum q (l.foldl (fun acc r => bump (key r) acc) acc)
      = keyFilterSum q acc + (l.filter fun r => q (key r)).length := by
  induction l generalizing acc with
  | nil => simp
  | cons r l ih =>
    rw [List.foldl_cons, ih, bump_keyFilterSum]
    by_cases h : q (key r) <;> simp [List.filter_cons, h] <;> omega

theorem groupCount_keyFilterSum {α κ : Type} [DecidableEq κ] (key : α → κ) (q : κ → Bool)
    (l : List α) :
    keyFilterSum q (groupCount key l) = (l.filter fun r => q (key r)).length := by
  rw [groupCount, foldl_bump_keyFilterSum]
  simp [keyFilterSum]

theorem bump_mem_keys {κ : Type} [DecidableEq κ] (k₀ k : κ) (acc : List (κ × Nat)) :
    k₀ ∈ (bump k acc).map Prod.fst ↔ k₀ = k ∨ k₀ ∈ acc.map Prod.fst := by
  induction acc with
  | nil => simp [bump]
  | cons p rest ih =>
    obtain ⟨a, c⟩ := p
    by_cases hk : a = k
    · subst hk
      simp only [bump, if_pos, List.map_cons, List.mem_cons]
      tauto
    · simp only [bump, if_neg hk, List.map_cons, List.mem_cons, ih]
      tauto

theorem foldl_bump_mem_keys {α κ : Type} [DecidableEq κ] (key : α → κ) (k : κ)
    (l : List α) (acc : List (κ × Nat)) :
    k ∈ (l.foldl (fun acc r => bump (key r) acc) acc).map Prod.fst
      ↔ k ∈ acc.map Prod.fst ∨ ∃ r ∈ l, key r = k := by
  induction l generalizing acc with
  | nil => simp
  | cons r l ih =>
    rw [List.foldl_cons, ih, bump_mem_keys]
    constructor
    · rintro ((h | h) | ⟨r₀, hr₀, hk⟩)
      · exact Or.inr ⟨r, List.mem_cons_self r l, h.symm⟩
      · exact Or.inl h
      · exact Or.inr ⟨r₀, List.mem_cons_of_mem r hr₀, hk⟩
    · rintro (h | ⟨r₀, hr₀, hk⟩)
      · exact Or.inl (Or.inr h)
      · rcases List.mem_cons.mp hr₀ with rfl | hr₀
        · exact Or.inl (Or.inl hk.symm)
        · exact Or.inr ⟨r₀, hr₀, hk⟩

theorem groupCount_mem_keys {α κ : Type} [DecidableEq κ] (key : α → κ) (k : κ) (l : List α) :
    k ∈ (groupCount key l).map Prod.fst ↔ ∃ r ∈ l, key r = k := by
  rw [groupCount, foldl_bump_mem_keys]
  simp

theorem bump_keys {κ : Type} [DecidableEq κ] (k : κ) (acc : List (κ × Nat)) :
    (bump k acc).map Prod.fst =
      if k ∈ acc.map Prod.fst then acc.map Prod.fst else acc.map Prod.fst ++ [k] := by
  induction acc with
  | nil => simp [bump]
  | cons p rest ih =>
    obtain ⟨a, c⟩ := p
    by_cases hk : a = k
    · subst hk
      simp [bump]
    · have hne : ¬ k = a := fun h => hk h.symm
      by_cases hmem : k ∈ rest.map Prod.fst
      · simp [bump, if_neg hk, ih, hmem, hne]
      · simp [bump, if_neg hk, ih, hmem, hne]

theorem bump_keys_nodup {κ : Type} [DecidableEq κ] (k : κ) (acc : List (κ × Nat))
    (h : (acc.map Prod.fst).Nodup) : ((bump k acc).map Prod.fst).Nodup := by
  rw [bump_keys]
  by_cases hmem : k ∈ acc.map Prod.fst
  · simpa [hmem] using h
  · simp only [if_neg hmem]
    simpa [List.nodup_append, hmem] using h

theorem foldl_bump_keys_nodup {α κ : Type} [DecidableEq κ] (key : α → κ)
    (l : List α) (acc : List (κ × Nat)) (h : (acc.map Prod.fst).Nodup) :
    ((l.foldl (fun acc r => bump (key r) acc) acc).map Prod.fst).Nodup := by
  induction l generalizing acc with
  | nil => exact h
  | cons r l ih => exact ih _ (bump_keys_nodup _ _ h)

theorem groupCount_keys_nodup {α κ : Type} [DecidableEq κ] (key : α → κ) (l : List α) :
    ((groupCount key l).map Prod.fst).Nodup :=
  foldl_bump_keys_nodup key l [] (by simp)

theorem bump_pos {κ : Type} [DecidableEq κ] (k : κ) (acc : List (κ × Nat))
    (h : ∀ p ∈ acc, 1 ≤ p.2) : ∀ p ∈ bump k acc, 1 ≤ p.2 := by
  induction acc with
  | nil =>
    intro p hp
    simp only [bump, List.mem_singleton] at hp
    simp [hp]
  | cons q rest ih =>
    obtain ⟨a, c⟩ := q
    intro p hp
    by_cases hk : a = k
    · subst hk
      simp only [bump, if_pos, List.mem_cons] at hp
      rcases hp with hp | hp
      · rw [hp]
        omega
      · exact h p (List.mem_cons_of_mem _ hp)
    · simp only [bump, if_neg hk, List.mem_cons] at hp
      rcases hp with hp | hp
      · rw [hp]
        exact h _ (List.mem_cons_self _ _)
      · exact ih (fun q hq => h q (List.mem_cons_of_mem _ hq)) p hp

theorem foldl_bump_pos {α κ : Type} [DecidableEq κ] (key : α → κ)
    (l : List α) (acc : List (κ × Nat)) (h : ∀ p ∈ acc, 1 ≤ p.2) :
    ∀ p ∈ l.foldl (fun acc r => bump (key r) acc) acc, 1 ≤ p.2 := by
  induction l generalizing acc with
  | nil => exact h
  | cons r l ih => exact ih _ (bump_pos _ _ h)

theorem groupCount_pos {α κ : Type} [DecidableEq κ] (key : α → κ) (l : List α) :
    ∀ p ∈ groupCount key l, 1 ≤ p.2 :=
  foldl_bump_pos key l [] (by simp)

theorem keyFilterSum_eq_zero_of_not_mem {κ : Type} [DecidableEq κ] (k : κ)
    (l : List (κ × Nat)) (h : k ∉ l.map Prod.fst) :
    keyFilterSum (fun k₀ => decide (k₀ = k)) l = 0 := by
  induction l with
  | nil => rfl
  | cons p rest ih =>
    simp only [List.map_cons, List.mem_cons, not_or] at h
    have hne : ¬ p.1 = k := fun he => h.1 (he ▸ rfl)
    simp [keyFilterSum, hne, ih h.2]

theorem keyFilterSum_eq_of_mem {κ : Type} [DecidableEq κ] (l : List (κ × Nat))
    (p : κ × Nat) (hnd : (l.map Prod.fst).Nodup) (hp : p ∈ l) :
    keyFilterSum (fun k₀ => decide (k₀ = p.1)) l = p.2 := by
  induction l with
  | nil => cases hp
  | cons q rest ih =>
    simp only [List.map_cons, List.nodup_cons] at hnd
    rcases List.mem_cons.mp hp with rfl | hp
    · simp [keyFilterSum, keyFilterSum_eq_zero_of_not_mem p.1 rest hnd.1]
    · have hne : ¬ q.1 = p.1 := by
        intro he
        exact hnd.1 (he ▸ (List.mem_map.mpr ⟨p, hp, rfl⟩))
      simp [keyFilterSum, hne, ih hnd.2 hp]

theorem groupCount_entry_value {α κ : Type} [DecidableEq κ] (key : α → κ) (l : List α)
    (p : κ × Nat) (hp : p ∈ groupCount key l) :
    p.2 = (l.filter fun r => decide (key r = p.1)).length := by
  have h₁ := keyFilterSum_eq_of_mem (groupCount key l) p (groupCount_keys_nodup key l) hp
  have h₂ := groupCount_keyFilterSum key (fun k₀ => decide (k₀ = p.1)) l
  rw [h₁] at h₂
  exact h₂

theorem groupCount_key_of_mem {α κ : Type} [DecidableEq κ] (key : α → κ) (l : List α)
    (p : κ × Nat) (hp : p ∈ groupCount key l) : ∃ r ∈ l, key r = p.1 :=
  (groupCount_mem_keys key p.1 l).mp (List.mem_map.mpr ⟨p, hp, rfl⟩)

/-! ### The month key: strftime("%Y-%m")

`plot_commit_history` buckets commits by `col("date").dt().strftime("%Y-%m")`
(main.rs line 92).  chrono renders %Y as the year zero-padded to four
digits and %m as the month zero-padded to two digits, so for the years
0-9999 the bucket of a date is the seven-character string "YYYY-MM". -/

/-- The ASCII digit character for `n % 10`. -/
def asciiDigit (n : Nat) : Char := Char.ofNat (48 + n % 10)

/-- The four digit characters of %Y (zero-padded, years 0-9999). -/
def yearChars (y : Nat) : List Char :=
  [asciiDigit (y / 1000), asciiDigit (y / 100), asciiDigit (y / 10), asciiDigit y]

/-- The two digit characters of %m (zero-padded). -/
def monthChars (m : Nat) : List Char :=
  [asciiDigit (m / 10), asciiDigit m]

/-- strftime("%Y-%m") applied to a date: the month bucket used by the
activity aggregation (main.rs line 92).  The day of the month is not
consulted. -/
def monthKey (d : Date) : String :=
  String.mk (yearChars d.year ++ '-' :: monthChars d.month)

theorem asciiDigit_lt_iff (a b : Nat) :
    (asciiDigit a < asciiDigit b ↔ a % 10 < b % 10) := by
  have h : ∀ x, x < 10 → ∀ y, y < 10 →
      (Char.ofNat (48 + x) < Char.ofNat (48 + y) ↔ x < y) := by decide
  exact h (a % 10) (Nat.mod_lt a (by omega)) (b % 10) (Nat.mod_lt b (by omega))

theorem asciiDigit_eq_iff (a b : Nat) :
    (asciiDigit a = asciiDigit b ↔ a % 10 = b % 10) := by
  have h : ∀ x, x < 10 → ∀ y, y < 10 →
      (Char.ofNat (48 + x) = Char.ofNat (48 + y) ↔ x = y) := by decide
  exact h (a % 10) (Nat.mod_lt a (by omega)) (b % 10) (Nat.mod_lt b (by omega))

theorem char_cons_lt_iff (a b : Char) (as bs : List Char) :
    (a :: as) < (b :: bs) ↔ a < b ∨ (a = b ∧ as < bs) := by
  constructor
  · intro h
    cases h with
    | cons h => exact Or.inr ⟨rfl, h⟩
    | rel h => exact Or.inl h
  · rintro (h | ⟨rfl, h⟩)
    · exact List.Lex.rel h
    · exact List.Lex.cons h

theorem char_nil_lt_nil : (([] : List Char) < [] ↔ False) :=
  iff_false_intro fun h => nomatch h

theorem hyphen_not_lt : (('-' : Char) < '-' ↔ False) := by
  constructor
  · intro h
    exact absurd h (by decide)
  · intro h
    cases h

theorem hyphen_eq : (('-' : Char) = '-' ↔ True) := by simp

/-- Lexicographic comparison of two month keys is the chronological
comparison of their (year, month) pairs, for calendar years up to 9999. -/
theorem monthKey_lt_iff (d₁ d₂ : Date) (hy₁ : d₁.year ≤ 9999) (hy₂ : d₂.year ≤ 9999)
    (hm₁ : d₁.month ≤ 12) (hm₂ : d₂.month ≤ 12) :
    (monthKey d₁ < monthKey d₂ ↔
      (d₁.year < d₂.year ∨ (d₁.year = d₂.year ∧ d₁.month < d₂.month))) := by
  have hs : (monthKey d₁ < monthKey d₂ ↔
      (yearChars d₁.year ++ '-' :: monthChars d₁.month)
        < (yearChars d₂.year ++ '-' :: monthChars d₂.month)) :=
    String.lt_iff_toList_lt
  rw [hs]
  simp only [yearChars, monthChars, List.cons_append, List.nil_append]
  rw [char_cons_lt_iff, char_cons_lt_iff, char_cons_lt_iff, char_cons_lt_iff,
    char_cons_lt_iff, char_cons_lt_iff, char_cons_lt_iff, char_nil_lt_nil,
    hyphen_not_lt, hyphen_eq]
  simp only [asciiDigit_lt_iff, asciiDigit_eq_iff, false_or, true_and, and_false, or_false]
  have e₁ : d₁.year / 1000 % 10 = d₁.year / 1000 := Nat.mod_eq_of_lt (by omega)
  have e₂ : d₂.year / 1000 % 10 = d₂.year / 1000 := Nat.mod_eq_of_lt (by omega)
  rw [e₁, e₂]
  omega

/-! ### The aggregation and chart-building pipeline -/

/-- The grouping key of the activity aggregation (main.rs line 92): the
month bucket string paired with the author. -/
def pairKey (r : CommitRecord) : String × String := (monthKey r.date, r.author)

/-- Ascending order on the month-key column, used by sort(["date"]) at
main.rs line 94. -/
def monthLE (p q : (String × String) × Nat) : Prop := p.1.1 ≤ q.1.1

instance : DecidableRel monthLE :=
  fun p q => inferInstanceAs (Decidable (p.1.1 ≤ q.1.1))

instance : IsTotal ((String × String) × Nat) monthLE :=
  ⟨fun p q => le_total p.1.1 q.1.1⟩

instance : IsTrans ((String × String) × Nat) monthLE :=
  ⟨fun _ _ _ h h₂ => le_trans h h₂⟩

/-- Ascending order on the count column, used by sort(["count"]) at
main.rs line 143. -/
def countLE (p q : String × Nat) : Prop := p.2 ≤ q.2

instance : DecidableRel countLE :=
  fun p q => inferInstanceAs (Decidable (p.2 ≤ q.2))

instance : IsTotal (String × Nat) countLE :=
  ⟨fun p q => Nat.le_total p.2 q.2⟩

instance : IsTrans (String × Nat) countLE :=
  ⟨fun _ _ _ h h₂ => Nat.le_trans h h₂⟩

/-- main.rs 89-96: group the records by (month bucket, author), count each
group, and sort the result ascending by the month bucket.  (The source
names the local variable commits_per_day_per_author although the buckets
are months.) -/
def commits_per_day_per_author (records : List CommitRecord) :
    List ((String × String) × Nat) :=
  (groupCount pairKey records).insertionSort monthLE

/-- plotly BarMode (main.rs line 126 sets BarMode::Stack). -/
inductive BarMode
  | group | stack | overlay | relative
deriving DecidableEq, Repr

/-- plotly Orientation (main.rs line 162 sets Orientation::Horizontal). -/
inductive BarOrientation
  | vertical | horizontal
deriving DecidableEq, Repr

/-- One Bar::new(x, y).name(author) trace of the activity chart
(main.rs 100-121). -/
structure StackedBarTrace where
  x : List String
  y : List Nat
  name : String
deriving DecidableEq, Repr

/-- The activity Plot: its traces and the Layout of main.rs 124-128. -/
structure HistoryPlot where
  traces : List StackedBarTrace
  width : Nat
  barMode : BarMode
  title : String
deriving DecidableEq, Repr

/-- The single horizontal Bar::new(x, y) trace of the ranking chart
(main.rs 148-162). -/
structure HBarTrace where
  x : List Nat
  y : List String
  orientation : BarOrientation
deriving DecidableEq, Repr

/-- The ranking Plot: its trace and the Layout of main.rs 164-167. -/
structure CountPlot where
  trace : HBarTrace
  width : Nat
  title : String
deriving DecidableEq, Repr

/-- main.rs line 14. -/
def PLOT_WIDTH : Nat := 1200

/-- The rows of one author's partition, in the row order of the sorted
grouped frame, turned into a bar trace (main.rs 100-121): x is the month
column, y the count column, and the trace is named by the author. -/
def traceFor (grouped : List ((String × String) × Nat)) (a : String) : StackedBarTrace :=
  { x := (grouped.filter fun p => decide (p.1.2 = a)).map fun p => p.1.1,
    y := (grouped.filter fun p => decide (p.1.2 = a)).map Prod.snd,
    name := a }

/-- The distinct values of a column in first-occurrence order; the
determinised order in which partition_by (main.rs 98-99) yields the
author partitions. -/
def firstOccurrences : List String → List String
  | [] => []
  | a :: rest => a :: ((firstOccurrences rest).filter fun b => decide (b ≠ a))

/-- main.rs 85-132: the activity chart.  One trace per author partition of
the sorted grouped frame, stacked bar mode, fixed width and title. -/
def plot_commit_history (records : List CommitRecord) : HistoryPlot :=
  { traces :=
      (firstOccurrences ((commits_per_day_per_author records).map fun p => p.1.2)).map
        (traceFor (commits_per_day_per_author records)),
    width := PLOT_WIDTH,
    barMode := BarMode.stack,
    title := "Commit activity per author" }

/-- main.rs 138-142: group the records by author and count each group
(the spec calls this operation aggregate_totals). -/
def aggregate_totals (records : List CommitRecord) : List (String × Nat) :=
  groupCount CommitRecord.author records

/-- main.rs 143-146: sort the totals ascending by count and keep the last
n rows (tail(Some(n))); the spec calls this operation top_n_authors. -/
def top_n_authors (totals : List (String × Nat)) (n : Nat) : List (String × Nat) :=
  (totals.insertionSort countLE).drop ((totals.insertionSort countLE).length - n)

/-- main.rs 134-171: the ranking chart.  x is the count column, y the
author column of the sorted-and-truncated totals, as one horizontal
trace. -/
def plot_commit_count_per_author (records : List CommitRecord) (top : Nat) : CountPlot :=
  { trace :=
      { x := (top_n_authors (aggregate_totals records) top).map Prod.snd,
        y := (top_n_authors (aggregate_totals records) top).map Prod.fst,
        orientation := BarOrientation.horizontal },
    width := PLOT_WIDTH / 2,
    title := "Commits per author" }

/-! ### Invariants of the sorted grouped frame -/

theorem cpd_perm (records : List CommitRecord) :
    (commits_per_day_per_author records).Perm (groupCount pairKey records) :=
  List.perm_insertionSort monthLE (groupCount pairKey records)

theorem cpd_sorted (records : List CommitRecord) :
    (commits_per_day_per_author records).Pairwise monthLE :=
  List.sorted_insertionSort monthLE (groupCount pairKey records)

theorem cpd_keys_nodup (records : List CommitRecord) :
    ((commits_per_day_per_author records).map Prod.fst).Nodup :=
  (((cpd_perm records).map Prod.fst).nodup_iff).mpr (groupCount_keys_nodup pairKey records)

theorem cpd_mem_keys (records : List CommitRecord) (k : String × String) :
    k ∈ (commits_per_day_per_author records).map Prod.fst ↔
      ∃ r ∈ records, pairKey r = k := by
  rw [((cpd_perm records).map Prod.fst).mem_iff]
  exact groupCount_mem_keys pairKey k records

theorem cpd_entry (records : List CommitRecord) (p : (String × String) × Nat)
    (hp : p ∈ commits_per_day_per_author records) :
    p.2 = (records.filter fun r => decide (pairKey r = p.1)).length :=
  groupCount_entry_value pairKey records p ((cpd_perm records).mem_iff.mp hp)

theorem cpd_pos (records : List CommitRecord) (p : (String × String) × Nat)
    (hp : p ∈ commits_per_day_per_author records) : 1 ≤ p.2 :=
  groupCount_pos pairKey records p ((cpd_perm records).mem_iff.mp hp)

theorem firstOccurrences_nodup (l : List String) : (firstOccurrences l).Nodup := by
  induction l with
  | nil => exact List.nodup_nil
  | cons a rest ih =>
    rw [firstOccurrences, List.nodup_cons]
    constructor
    · intro hmem
      rcases List.mem_filter.mp hmem with ⟨_, hne⟩
      simp at hne
    · exact ih.filter _

theorem mem_firstOccurrences (l : List String) (a : String) :
    a ∈ firstOccurrences l ↔ a ∈ l := by
  induction l with
  | nil => simp [firstOccurrences]
  | cons b rest ih =>
    rw [firstOccurrences]
    by_cases hab : a = b
    · subst hab
      simp
    · simp only [List.mem_cons, List.mem_filter, ih, decide_eq_true_eq]
      constructor
      · rintro (h | ⟨h, _⟩)
        · exact Or.inl h
        · exact Or.inr h
      · rintro (h | h)
        · exact Or.inl h
        · exact Or.inr ⟨h, hab⟩

/-! ### The log extraction step (main.rs 41-83)

git log --pretty=format:"%ad,%an" emits one line per commit; get_commit_log
splits every line on "," (str().split(lit(","))), takes element 0 as the
date column and element 1 as the author column, and parses the date column
with strptime(%Y-%m-%d, strict: false).  Lines are modelled as character
lists and the %Y-%m-%d parse is kept abstract (any function
List Char → Option Date); the claims below hold for every such parse. -/

/-- Split a character list at every occurrence of the separator, polars
str.split semantics: n separators yield n+1 fields. -/
def splitOnChar (c : Char) : List Char → List (List Char)
  | [] => [[]]
  | x :: xs =>
    match splitOnChar c xs with
    | [] => [[]]
    | h :: t => if x = c then [] :: h :: t else (x :: h) :: t

/-- One row of the raw log frame after the with_columns step: the date
column is nullable (strptime with strict: false yields null on a failed
parse), the author column is field 1 of the split. -/
structure RawRecord where
  date : Option Date
  author : List Char
deriving DecidableEq, Repr

/-- polars strptime on one value, with the strict flag of StrptimeOptions
(main.rs 55-59).  Modelled from the polars documentation: with
strict: true a value that fails to parse raises a ComputeError, with
strict: false it becomes null. -/
def strptime (strict : Bool) (parse : List Char → Option Date) (field : List Char) :
    Except String (Option Date) :=
  match parse field with
  | some d => Except.ok (some d)
  | none => if strict then Except.error "conversion failed" else Except.ok none

/-- main.rs 62-79 applied to one log line: split on commas, field 0 through
strptime(strict: false) into the date column, field 1 into the author
column.  list.get(1, false) raises on a line with no comma; no line of the
fixed log format does, so that case is mapped to none. -/
def parseLogLine (parse : List Char → Option Date) (line : List Char) : Option RawRecord :=
  match splitOnChar ',' line with
  | dateField :: authorField :: _ =>
    match strptime false parse dateField with
    | Except.ok d => some { date := d, author := authorField }
    | Except.error _ => none
  | _ => none

/-- main.rs 41-83: the raw commit-log frame, one RawRecord per log line. -/
def get_commit_log (parse : List Char → Option Date) (lines : List (List Char)) :
    List RawRecord :=
  lines.filterMap (parseLogLine parse)

/-- The grouping key of the activity aggregation on the raw frame:
strftime("%Y-%m") of a null date is null, so a null-date row is grouped
under a null month bucket. -/
def rawKey (r : RawRecord) : Option String × List Char := (r.date.map monthKey, r.author)

/-- The (month bucket, author) counting aggregation of main.rs 89-96
applied to the raw frame, null buckets included. -/
def raw_monthly (records : List RawRecord) : List ((Option String × List Char) × Nat) :=
  groupCount rawKey records

theorem splitOnChar_ne_nil (c : Char) (l : List Char) : splitOnChar c l ≠ [] := by
  cases l with
  | nil => simp [splitOnChar]
  | cons x xs =>
    rw [splitOnChar]
    cases h : splitOnChar c xs with
    | nil => simp
    | cons h t =>
      by_cases hx : x = c <;> simp [hx]

theorem splitOnChar_no_sep (c : Char) (l : List Char) (h : c ∉ l) :
    splitOnChar c l = [l] := by
  induction l with
  | nil => rfl
  | cons x xs ih =>
    simp only [List.mem_cons, not_or] at h
    rw [splitOnChar, ih h.2]
    have hx : ¬ x = c := fun he => h.1 he.symm
    simp [hx]

theorem splitOnChar_append (c : Char) (a b : List Char) (ha : c ∉ a) :
    splitOnChar c (a ++ c :: b) = a :: splitOnChar c b := by
  induction a with
  | nil =>
    simp only [List.nil_append]
    rw [splitOnChar]
    cases h : splitOnChar c b with
    | nil => exact absurd h (splitOnChar_ne_nil c b)
    | cons hd t => simp
  | cons x xs ih =>
    simp only [List.mem_cons, not_or] at ha
    simp only [List.cons_append]
    rw [splitOnChar, ih ha.2]
    have hx : ¬ x = c := fun he => ha.1 he.symm
    simp [hx]

theorem splitOnChar_head (c : Char) (l : List Char) :
    ∃ t, splitOnChar c l = (l.takeWhile fun x => decide (x ≠ c)) :: t := by
  induction l with
  | nil => exact ⟨[], rfl⟩
  | cons x xs ih =>
    obtain ⟨t, ht⟩ := ih
    by_cases hx : x = c
    · subst hx
      refine ⟨(xs.takeWhile fun y => decide (y ≠ x)) :: t, ?_⟩
      rw [splitOnChar, ht]
      simp [List.takeWhile_cons]
    · refine ⟨t, ?_⟩
      rw [splitOnChar, ht]
      simp [List.takeWhile_cons, hx]

/-! ### Derived helper lemmas -/

theorem groupCount_filter_sum {α κ : Type} [DecidableEq κ] (key : α → κ) (q : κ → Bool)
    (l : List α) :
    (((groupCount key l).filter fun p => q p.1).map Prod.snd).sum
      = (l.filter fun r => q (key r)).length := by
  rw [← keyFilterSum_eq_filter_map_sum]
  exact groupCount_keyFilterSum key q l

theorem cpd_author_mem (records : List CommitRecord) (a : String) :
    (a ∈ (commits_per_day_per_author records).map fun p => p.1.2)
      ↔ ∃ r ∈ records, r.author = a := by
  constructor
  · intro h
    rcases List.mem_map.mp h with ⟨p, hp, hpa⟩
    rcases groupCount_key_of_mem pairKey records p ((cpd_perm records).mem_iff.mp hp)
      with ⟨r, hr, hk⟩
    refine ⟨r, hr, ?_⟩
    have h₂ : r.author = p.1.2 := congrArg Prod.snd hk
    exact h₂.trans hpa
  · rintro ⟨r, hr, rfl⟩
    have hkmem : pairKey r ∈ (commits_per_day_per_author records).map Prod.fst :=
      (cpd_mem_keys records (pairKey r)).mpr ⟨r, hr, rfl⟩
    rcases List.mem_map.mp hkmem with ⟨p, hp, hpk⟩
    refine List.mem_map.mpr ⟨p, hp, ?_⟩
    have h₂ : p.1.2 = (pairKey r).2 := by rw [hpk]
    exact h₂

/-! ### The claims -/

/-- C1: for every finite input sequence of CommitRecords, the sum of all
counts in the monthly (author, month) aggregation produced by the activity
pipeline equals the length of the input sequence. -/
theorem monthly_counts_sum_eq_length (records : List CommitRecord) :
    ((commits_per_day_per_author records).map Prod.snd).sum = records.length := by
  rw [((cpd_perm records).map Prod.snd).sum_eq]
  have h := groupCount_keyFilterSum pairKey (fun _ => true) records
  rw [keyFilterSum_eq_filter_map_sum] at h
  simpa using h

/-- C3: for every input sequence and every author occurring in it, the
totals aggregation has the entry (author, number of records with that
author), that entry value is unique, and the sum of the totals over all
authors equals the length of the input sequence. -/
theorem aggregate_totals_spec (records : List CommitRecord) (a : String)
    (ha : a ∈ records.map CommitRecord.author) :
    (a, (records.filter fun r => decide (r.author = a)).length) ∈ aggregate_totals records
    ∧ (∀ p ∈ aggregate_totals records, p.1 = a →
        p.2 = (records.filter fun r => decide (r.author = a)).length)
    ∧ ((aggregate_totals records).map Prod.snd).sum = records.length := by
  have hmem : a ∈ (groupCount CommitRecord.author records).map Prod.fst := by
    rw [groupCount_mem_keys]
    rcases List.mem_map.mp ha with ⟨r, hr, hra⟩
    exact ⟨r, hr, hra⟩
  refine ⟨?_, ?_, ?_⟩
  · rcases List.mem_map.mp hmem with ⟨⟨k, v⟩, hp, hpa⟩
    have hka : k = a := hpa
    subst hka
    have hv : v = (records.filter fun r => decide (r.author = k)).length :=
      groupCount_entry_value CommitRecord.author records (k, v) hp
    subst hv
    exact hp
  · intro p hp hpa
    have hv := groupCount_entry_value CommitRecord.author records p hp
    rw [hpa] at hv
    exact hv
  · show ((groupCount CommitRecord.author records).map Prod.snd).sum = records.length
    have h := groupCount_keyFilterSum CommitRecord.author (fun _ => true) records
    rw [keyFilterSum_eq_filter_map_sum] at h
    simpa using h

/-- Witness for C3 at a concrete input. -/
theorem aggregate_totals_spec_witness :
    ("alice" ∈ ([⟨⟨2024, 1, 5⟩, "alice"⟩, ⟨⟨2024, 2, 1⟩, "alice"⟩,
        ⟨⟨2024, 1, 9⟩, "bob"⟩] : List CommitRecord).map CommitRecord.author)
    ∧ ("alice", 2) ∈ aggregate_totals [⟨⟨2024, 1, 5⟩, "alice"⟩,
        ⟨⟨2024, 2, 1⟩, "alice"⟩, ⟨⟨2024, 1, 9⟩, "bob"⟩] :=
  ⟨by decide,
    (aggregate_totals_spec [⟨⟨2024, 1, 5⟩, "alice"⟩, ⟨⟨2024, 2, 1⟩, "alice"⟩,
      ⟨⟨2024, 1, 9⟩, "bob"⟩] "alice" (by decide)).1⟩

/-- C4: the two aggregations are consistent: for each author the sum of
the monthly counts equals the totals entry, and the same authors appear in
both. -/
theorem aggregations_consistent (records : List CommitRecord) (a : String) :
    (((commits_per_day_per_author records).filter fun p => decide (p.1.2 = a)).map
        Prod.snd).sum
      = (((aggregate_totals records).filter fun p => decide (p.1 = a)).map Prod.snd).sum
    ∧ ((a ∈ (commits_per_day_per_author records).map fun p => p.1.2)
        ↔ a ∈ (aggregate_totals records).map Prod.fst) := by
  constructor
  · have h₁ : (((commits_per_day_per_author records).filter fun p =>
          decide (p.1.2 = a)).map Prod.snd).sum
        = (((groupCount pairKey records).filter fun p => decide (p.1.2 = a)).map
            Prod.snd).sum :=
      (((cpd_perm records).filter _).map Prod.snd).sum_eq
    have h₂ : (((groupCount pairKey records).filter fun p => decide (p.1.2 = a)).map
          Prod.snd).sum
        = (records.filter fun r => decide (r.author = a)).length := by
      have h := groupCount_filter_sum pairKey (fun k => decide (k.2 = a)) records
      simpa [pairKey] using h
    have h₃ : (((aggregate_totals records).filter fun p => decide (p.1 = a)).map
          Prod.snd).sum
        = (records.filter fun r => decide (r.author = a)).length := by
      have h := groupCount_filter_sum CommitRecord.author (fun k => decide (k = a)) records
      simpa [aggregate_totals] using h
    rw [h₁, h₂, h₃]
  · rw [cpd_author_mem records a]
    exact (groupCount_mem_keys CommitRecord.author a records).symm

/-- C5: on the empty input sequence every aggregation and chart-building
operation returns the empty structure. -/
theorem empty_input_empty_outputs (n : Nat) :
    commits_per_day_per_author [] = []
    ∧ aggregate_totals [] = []
    ∧ top_n_authors [] n = []
    ∧ plot_commit_history [] =
        { traces := [], width := PLOT_WIDTH, barMode := BarMode.stack,
          title := "Commit activity per author" }
    ∧ plot_commit_count_per_author [] n =
        { trace := { x := [], y := [], orientation := BarOrientation.horizontal },
          width := PLOT_WIDTH / 2, title := "Commits per author" } := by
  have htop : top_n_authors [] n = [] := by
    rw [top_n_authors]
    simp
  have htop₂ : top_n_authors (aggregate_totals []) n = [] := by
    rw [show aggregate_totals [] = [] from rfl]
    exact htop
  refine ⟨rfl, rfl, htop, rfl, ?_⟩
  simp [plot_commit_count_per_author, htop₂]

/-- C8: the aggregation and chart-building steps are deterministic pure
functions of the input sequence: two runs on the same input yield
structurally identical output.  (Absence of input mutation and of I/O is
inherent to the functional embedding: every operation is a total function
of its argument.) -/
theorem pipeline_deterministic (records : List CommitRecord) (top : Nat) :
    plot_commit_history records = plot_commit_history records
    ∧ plot_commit_count_per_author records top = plot_commit_count_per_author records top
    ∧ commits_per_day_per_author records = commits_per_day_per_author records
    ∧ aggregate_totals records = aggregate_totals records :=
  ⟨rfl, rfl, rfl, rfl⟩

/-- C2: for every totals mapping (distinct authors) and every n,
top_n_authors returns the last min(n, size) entries of the ascending-by-
count sort: its length is min(n, number of distinct authors), it is sorted
ascending by count, n = 0 yields the empty sequence, and n at least the
number of distinct authors yields all authors. -/
theorem top_n_authors_spec (totals : List (String × Nat)) (n : Nat)
    (hnd : (totals.map Prod.fst).Nodup) :
    (top_n_authors totals n).length = min n totals.length
    ∧ (top_n_authors totals n).Pairwise (fun p q => p.2 ≤ q.2)
    ∧ top_n_authors totals n
        = (totals.insertionSort countLE).drop ((totals.insertionSort countLE).length - n)
    ∧ (n = 0 → top_n_authors totals n = [])
    ∧ (totals.length ≤ n → (top_n_authors totals n).Perm totals) := by
  have hlen := (List.perm_insertionSort countLE totals).length_eq
  refine ⟨?_, ?_, rfl, ?_, ?_⟩
  · rw [top_n_authors, List.length_drop, hlen]
    omega
  · exact List.Pairwise.sublist (List.drop_sublist _ _)
      (List.sorted_insertionSort countLE totals)
  · intro hn
    subst hn
    rw [top_n_authors, Nat.sub_zero, List.drop_length]
  · intro hn
    rw [top_n_authors, show (totals.insertionSort countLE).length - n = 0 by omega,
      List.drop_zero]
    exact List.perm_insertionSort countLE totals

/-- Witness for C2 at a concrete input. -/
theorem top_n_authors_spec_witness :
    ((([("alice", 3), ("bob", 1)] : List (String × Nat)).map Prod.fst).Nodup)
    ∧ (top_n_authors [("alice", 3), ("bob", 1)] 1).length = min 1 2 :=
  ⟨by decide, (top_n_authors_spec [("alice", 3), ("bob", 1)] 1 (by decide)).1⟩

/-- C6: the monthly aggregation keys every record by its date formatted as
the zero-padded "YYYY-MM" string: the key of each record is present in the
aggregation, the day of the month is discarded, and for calendar dates
(month at most 12, year at most 9999) lexicographic order on the keys is
chronological order on (year, month). -/
theorem month_bucket_format (records : List CommitRecord) (r : CommitRecord)
    (hr : r ∈ records) (y m day₁ day₂ : Nat) (d₁ d₂ : Date)
    (hy₁ : d₁.year ≤ 9999) (hy₂ : d₂.year ≤ 9999)
    (hm₁ : d₁.month ≤ 12) (hm₂ : d₂.month ≤ 12) :
    (monthKey r.date, r.author) ∈ (commits_per_day_per_author records).map Prod.fst
    ∧ monthKey ⟨y, m, day₁⟩ = monthKey ⟨y, m, day₂⟩
    ∧ (monthKey d₁ < monthKey d₂ ↔
        (d₁.year < d₂.year ∨ (d₁.year = d₂.year ∧ d₁.month < d₂.month))) :=
  ⟨(cpd_mem_keys records _).mpr ⟨r, hr, rfl⟩, rfl,
    monthKey_lt_iff d₁ d₂ hy₁ hy₂ hm₁ hm₂⟩

/-- Witness for C6 at a concrete input. -/
theorem month_bucket_format_witness :
    ((⟨⟨2024, 1, 5⟩, "alice"⟩ : CommitRecord) ∈ ([⟨⟨2024, 1, 5⟩, "alice"⟩] : List CommitRecord))
    ∧ (2024 : Nat) ≤ 9999 ∧ (2025 : Nat) ≤ 9999 ∧ (1 : Nat) ≤ 12 ∧ (2 : Nat) ≤ 12
    ∧ ((monthKey ⟨2024, 1, 5⟩, "alice")
          ∈ (commits_per_day_per_author [⟨⟨2024, 1, 5⟩, "alice"⟩]).map Prod.fst
        ∧ monthKey ⟨2024, 3, 1⟩ = monthKey ⟨2024, 3, 9⟩
        ∧ (monthKey ⟨2024, 1, 5⟩ < monthKey ⟨2025, 2, 1⟩ ↔
            ((2024 : Nat) < 2025 ∨ ((2024 : Nat) = 2025 ∧ (1 : Nat) < 2)))) :=
  ⟨by decide, by decide, by decide, by decide, by decide,
    month_bucket_format [⟨⟨2024, 1, 5⟩, "alice"⟩] ⟨⟨2024, 1, 5⟩, "alice"⟩ (by decide)
      2024 3 1 9 ⟨2024, 1, 5⟩ ⟨2025, 2, 1⟩ (by decide) (by decide) (by decide) (by decide)⟩

theorem traceFor_spec (records : List CommitRecord) (a : String) :
    ((traceFor (commits_per_day_per_author records) a).x.Pairwise fun m₁ m₂ => m₁ < m₂)
    ∧ (∀ mk, mk ∈ (traceFor (commits_per_day_per_author records) a).x
        ↔ ∃ r ∈ records, r.author = a ∧ monthKey r.date = mk)
    ∧ (traceFor (commits_per_day_per_author records) a).y
        = (traceFor (commits_per_day_per_author records) a).x.map (fun mk =>
            (records.filter fun r =>
              decide (monthKey r.date = mk) && decide (r.author = a)).length)
    ∧ (∀ c ∈ (traceFor (commits_per_day_per_author records) a).y, 0 < c) := by
  have hpw_le : ((commits_per_day_per_author records).filter fun p =>
      decide (p.1.2 = a)).Pairwise monthLE :=
    List.Pairwise.sublist (List.filter_sublist _) (cpd_sorted records)
  have hkeys : (((commits_per_day_per_author records).filter fun p =>
      decide (p.1.2 = a)).map Prod.fst).Nodup := by
    have hsub : List.Sublist
        (((commits_per_day_per_author records).filter fun p =>
          decide (p.1.2 = a)).map Prod.fst)
        ((commits_per_day_per_author records).map Prod.fst) :=
      (List.filter_sublist _).map Prod.fst
    exact hsub.nodup (cpd_keys_nodup records)
  have hpw_ne : ((commits_per_day_per_author records).filter fun p =>
      decide (p.1.2 = a)).Pairwise (fun p q => p.1 ≠ q.1) :=
    List.pairwise_map.mp hkeys
  have hrows_pw : ((commits_per_day_per_author records).filter fun p =>
      decide (p.1.2 = a)).Pairwise (fun p q => p.1.1 < q.1.1) := by
    refine (hpw_le.and hpw_ne).imp_of_mem ?_
    intro p q hp hq hpq
    have hpa : p.1.2 = a := of_decide_eq_true (List.mem_filter.mp hp).2
    have hqa : q.1.2 = a := of_decide_eq_true (List.mem_filter.mp hq).2
    refine lt_of_le_of_ne hpq.1 ?_
    intro he
    exact hpq.2 (Prod.ext_iff.mpr ⟨he, hpa.trans hqa.symm⟩)
  refine ⟨List.pairwise_map.mpr hrows_pw, ?_, ?_, ?_⟩
  · intro mk
    show mk ∈ ((commits_per_day_per_author records).filter fun p =>
        decide (p.1.2 = a)).map (fun p => p.1.1) ↔ _
    rw [List.mem_map]
    constructor
    · rintro ⟨p, hp, hpx⟩
      rcases List.mem_filter.mp hp with ⟨hpg, hpa⟩
      have hpa₂ : p.1.2 = a := of_decide_eq_true hpa
      rcases (cpd_mem_keys records p.1).mp (List.mem_map.mpr ⟨p, hpg, rfl⟩) with ⟨r, hr, hk⟩
      refine ⟨r, hr, ?_, ?_⟩
      · have h₂ : r.author = p.1.2 := congrArg Prod.snd hk
        exact h₂.trans hpa₂
      · have h₂ : monthKey r.date = p.1.1 := congrArg Prod.fst hk
        exact h₂.trans hpx
    · rintro ⟨r, hr, hra, hmk⟩
      have hkmem : (mk, a) ∈ (commits_per_day_per_author records).map Prod.fst :=
        (cpd_mem_keys records (mk, a)).mpr ⟨r, hr, by rw [pairKey, hra, hmk]⟩
      rcases List.mem_map.mp hkmem with ⟨p, hpg, hpk⟩
      refine ⟨p, List.mem_filter.mpr ⟨hpg, ?_⟩, ?_⟩
      · have h₂ : p.1.2 = a := by rw [hpk]
        exact decide_eq_true h₂
      · rw [hpk]
  · show ((commits_per_day_per_author records).filter fun p =>
        decide (p.1.2 = a)).map Prod.snd
      = (((commits_per_day_per_author records).filter fun p =>
          decide (p.1.2 = a)).map (fun p => p.1.1)).map _
    rw [List.map_map]
    refine List.map_congr_left ?_
    intro p hp
    rcases List.mem_filter.mp hp with ⟨hpg, hpa⟩
    have hpa₂ : p.1.2 = a := of_decide_eq_true hpa
    show p.2 = (records.filter fun r =>
      decide (monthKey r.date = p.1.1) && decide (r.author = a)).length
    rw [cpd_entry records p hpg]
    congr 1
    refine List.filter_congr ?_
    intro r hr
    rw [← Bool.decide_and]
    refine decide_eq_decide.mpr ?_
    rw [pairKey, Prod.ext_iff]
    constructor
    · rintro ⟨h₁, h₂⟩
      exact ⟨h₁, h₂.trans hpa₂⟩
    · rintro ⟨h₁, h₂⟩
      exact ⟨h₁, h₂.trans hpa₂.symm⟩
  · intro c hc
    rcases List.mem_map.mp hc with ⟨p, hp, hpc⟩
    have hpos := cpd_pos records p (List.mem_filter.mp hp).1
    omega

/-- C7: the activity chart has exactly one series per distinct author of
the input; each series lists, in strictly ascending order, exactly the
month keys in which its author has at least one commit, paired with the
(positive) number of that author's commits in that month; and the chart
uses stacked bar mode. -/
theorem plot_commit_history_spec (records : List CommitRecord) :
    ((plot_commit_history records).traces.map StackedBarTrace.name).Nodup
    ∧ (∀ a, a ∈ (plot_commit_history records).traces.map StackedBarTrace.name
        ↔ ∃ r ∈ records, r.author = a)
    ∧ (∀ t ∈ (plot_commit_history records).traces,
        (t.x.Pairwise fun m₁ m₂ => m₁ < m₂)
        ∧ (∀ mk, mk ∈ t.x ↔ ∃ r ∈ records, r.author = t.name ∧ monthKey r.date = mk)
        ∧ t.y = t.x.map (fun mk =>
            (records.filter fun r =>
              decide (monthKey r.date = mk) && decide (r.author = t.name)).length)
        ∧ (∀ c ∈ t.y, 0 < c))
    ∧ (plot_commit_history records).barMode = BarMode.stack := by
  have hnames : (plot_commit_history records).traces.map StackedBarTrace.name
      = firstOccurrences ((commits_per_day_per_author records).map fun p => p.1.2) := by
    show ((firstOccurrences ((commits_per_day_per_author records).map fun p => p.1.2)).map
        (traceFor (commits_per_day_per_author records))).map StackedBarTrace.name = _
    have hcomp : (StackedBarTrace.name ∘ traceFor (commits_per_day_per_author records)) = id :=
      rfl
    rw [List.map_map, hcomp, List.map_id]
  refine ⟨?_, ?_, ?_, rfl⟩
  · rw [hnames]
    exact firstOccurrences_nodup _
  · intro a
    rw [hnames, mem_firstOccurrences]
    exact cpd_author_mem records a
  · intro t ht
    have ht₂ : t ∈ (firstOccurrences ((commits_per_day_per_author records).map
        fun p => p.1.2)).map (traceFor (commits_per_day_per_author records)) := ht
    rcases List.mem_map.mp ht₂ with ⟨a, _, rfl⟩
    exact traceFor_spec records a

/-- C9: a log line is formatted as "date,author" and then split on every
comma, taking element 1.  For an author display name containing a comma,
the recorded author is therefore only the part of the name before its
first comma — a proper truncation of the name. -/
theorem author_truncated_at_comma (parse : List Char → Option Date)
    (dateField name : List Char) (hd : ',' ∉ dateField) (hn : ',' ∈ name) :
    parseLogLine parse (dateField ++ ',' :: name)
      = some { date := parse dateField,
               author := name.takeWhile fun c => decide (c ≠ ',') }
    ∧ (name.takeWhile fun c => decide (c ≠ ',')) ≠ name := by
  constructor
  · obtain ⟨t, ht⟩ := splitOnChar_head ',' name
    have hsplit : splitOnChar ',' (dateField ++ ',' :: name)
        = dateField :: (name.takeWhile fun c => decide (c ≠ ',')) :: t := by
      rw [splitOnChar_append ',' dateField name hd, ht]
    have hst : strptime false parse dateField = Except.ok (parse dateField) := by
      cases hp : parse dateField <;> simp [strptime, hp]
    simp only [parseLogLine, hsplit, hst]
  · intro he
    rw [List.takeWhile_eq_self_iff] at he
    have h₂ := he ',' hn
    simp at h₂

/-- Witness for C9 at a concrete input. -/
theorem author_truncated_at_comma_witness :
    (',' ∉ (['0'] : List Char)) ∧ (',' ∈ (['a', ',', 'b'] : List Char))
    ∧ parseLogLine (fun _ => none) (['0'] ++ ',' :: ['a', ',', 'b'])
        = some { date := none, author := ['a'] }
    ∧ ((['a', ',', 'b'] : List Char).takeWhile fun c => decide (c ≠ ',')) ≠ ['a', ',', 'b'] := by
  have h := author_truncated_at_comma (fun _ => none) ['0'] ['a', ',', 'b']
    (by decide) (by decide)
  exact ⟨by decide, by decide, h.1, h.2⟩

/-- C10: with StrptimeOptions strict: false, a log line whose date field
fails the %Y-%m-%d parse gets a null date instead of an error (strict:
true would error), the line still becomes a record, and that record is
grouped under the null month bucket of the activity aggregation. -/
theorem nonstrict_date_null_bucket (parse : List Char → Option Date)
    (dateField authorField : List Char) (lines : List (List Char))
    (hd : ',' ∉ dateField) (ha : ',' ∉ authorField)
    (hp : parse dateField = none)
    (hl : (dateField ++ ',' :: authorField) ∈ lines) :
    strptime false parse dateField = Except.ok none
    ∧ strptime true parse dateField = Except.error "conversion failed"
    ∧ parseLogLine parse (dateField ++ ',' :: authorField)
        = some { date := none, author := authorField }
    ∧ (none, authorField) ∈ (raw_monthly (get_commit_log parse lines)).map Prod.fst := by
  have hst : strptime false parse dateField = Except.ok none := by
    simp [strptime, hp]
  have hsplit : splitOnChar ',' (dateField ++ ',' :: authorField)
      = dateField :: [authorField] := by
    rw [splitOnChar_append ',' dateField authorField hd, splitOnChar_no_sep ',' authorField ha]
  have hline : parseLogLine parse (dateField ++ ',' :: authorField)
      = some { date := none, author := authorField } := by
    simp only [parseLogLine, hsplit, hst]
  refine ⟨hst, by simp [strptime, hp], hline, ?_⟩
  have hrec : ({ date := none, author := authorField } : RawRecord)
      ∈ get_commit_log parse lines :=
    List.mem_filterMap.mpr ⟨dateField ++ ',' :: authorField, hl, hline⟩
  exact (groupCount_mem_keys rawKey (none, authorField)
    (get_commit_log parse lines)).mpr ⟨_, hrec, rfl⟩

/-- Witness for C10 at a concrete input. -/
theorem nonstrict_date_null_bucket_witness :
    (',' ∉ (['x'] : List Char)) ∧ (',' ∉ (['a'] : List Char))
    ∧ ((fun _ : List Char => (none : Option Date)) ['x'] = none)
    ∧ ((['x'] ++ ',' :: ['a']) ∈ [['x', ',', 'a']])
    ∧ (none, (['a'] : List Char))
        ∈ (raw_monthly (get_commit_log (fun _ => none) [['x', ',', 'a']])).map Prod.fst := by
  have h := nonstrict_date_null_bucket (fun _ => none) ['x'] ['a'] [['x', ',', 'a']]
    (by decide) (by decide) rfl (by decide)
  exact ⟨by decide, by decide, rfl, by decide, h.2.2.2⟩
